import Mathlib

/-!
Verification of the FRIVail core (a FRI-based polynomial commitment scheme with
data availability sampling) against its natural-language specification.

The development shallowly embeds the Rust sources:
  * `src/poly.rs`   — byte → packed-MLE embedder (`bytes_to_scalar`,
    `bytes_to_packed_mle`, chunking, power-of-two padding);
  * `src/frivail.rs` — the Reed–Solomon decoder (`decode_batch`,
    `decode_codeword`, the in-place inverse-NTT butterfly loops), the naive
    erasure reconstructor (`interpolate_at_point`,
    `reconstruct_codeword_naive`), and the transcript / evaluation-point
    helpers.

The 128-bit binary tower field `B128`, the additive NTT, the Merkle tree and
the Fiat–Shamir transcript are external library primitives (the `binius`
crates); where a claim depends on them they are modelled from the
specification, as indicated by `Modelled from the spec:` doc comments.
Scalars are embedded as an abstract field `F`; machine bytes and `u128`
values are embedded as `Nat` (all byte values are below `2^128`, so no
wrap-around occurs in the embedded packing code).

Mutable Rust slices are embedded as `List F` at the interface and as update
functions `Nat → F` inside the butterfly loops; a Rust `panic!`
(`Option::unwrap` on `None`) is embedded as the `none` case of an `Option`
result; a Rust `Result<_, String>` is embedded as `Except String _`.
-/

/-! ## Basic helpers shared by the embeddings -/

/-- Rust `usize::div_ceil`: `(a + b - 1) / b`. -/
def divCeil (a b : Nat) : Nat := (a + b - 1) / b

/-- Rust `usize::next_power_of_two`: the least power of two that is `≥ n`
(and `1` for `n = 0`), via `Nat.clog`. -/
def next_power_of_two (n : Nat) : Nat := 2 ^ Nat.clog 2 n

/-- Rust `Vec::resize(n, x)`: truncate to length `n`, or pad with `x` up to
length `n`. -/
def resize {α : Type} (l : List α) (n : Nat) (x : α) : List α :=
  if n ≤ l.length then l.take n else l ++ List.replicate (n - l.length) x

/-- Bit reversal of the `w` low bits of a natural number (bit `0` is sent to
bit `w - 1` and so on). -/
def revBits : Nat → Nat → Nat
  | 0, _ => 0
  | w + 1, i => revBits w (i / 2) + (i % 2) * 2 ^ w

/-! ## Embedding of `src/poly.rs` -/

/-- Constant `BYTES_PER_ELEMENT` from `poly.rs`: 128-bit scalars take 16
bytes. -/
def BYTES_PER_ELEMENT : Nat := 16

/-- Constant `BITS_PER_ELEMENT` from `poly.rs`. -/
def BITS_PER_ELEMENT : Nat := 128

/-- Rust `slice::chunks(BYTES_PER_ELEMENT)` from `bytes_to_packed_mle`:
split a byte list into consecutive chunks of 16 bytes, the final chunk
possibly shorter. -/
def chunks16 : List Nat → List (List Nat)
  | [] => []
  | b :: rest => ((b :: rest).take 16) :: chunks16 ((b :: rest).drop 16)
  termination_by l => l.length
  decreasing_by simp; omega

/-- `Utils::bytes_to_scalar`: zero-extend the chunk to a 16-byte array and
read it as a little-endian `u128`; the scalar is `P::Scalar::from` of that
value, embedded here as the `u128` value itself. -/
def bytes_to_scalar (chunk : List Nat) : Nat :=
  ∑ i ∈ Finset.range 16, chunk.getD i 0 * 256 ^ i

/-- Result record of `bytes_to_packed_mle` (the `FieldBuffer` member carries
the same scalars as `packed_values`, so only the scalar list and the
variable count are embedded). -/
structure PackedMLE where
  packed_values : List Nat
  total_n_vars : Nat
  deriving DecidableEq, Repr

/-- `Utils::bytes_to_packed_mle` (the sequential, non-`parallel` branch):
`num_elements = data.len().div_ceil(BITS_PER_ELEMENT)` (the source divides
by 128, not 16), pad to the next power of two, chunk the bytes into 16-byte
scalars and `Vec::resize` to the padded size. -/
def bytes_to_packed_mle (data : List Nat) : Except String PackedMLE :=
  let num_elements := divCeil data.length BITS_PER_ELEMENT
  let padded_size := next_power_of_two num_elements
  let big_field_n_vars := Nat.log 2 padded_size
  let packed_size := 1 <<< big_field_n_vars
  let packed_values := (chunks16 data).map bytes_to_scalar
  let packed_values := resize packed_values packed_size 0
  Except.ok { packed_values := packed_values, total_n_vars := Nat.log 2 packed_values.length }

/-- Variant of `bytes_to_packed_mle` written from the specification's words
for the refinement comparison of the embedder quirk: `num_elements` computed
as `ceil(|data| / 16)` (bytes-per-element) instead of `ceil(|data| / 128)`.
Everything else is identical to `bytes_to_packed_mle`. -/
def bytes_to_packed_mle_bytes_per (data : List Nat) : Except String PackedMLE :=
  let num_elements := divCeil data.length BYTES_PER_ELEMENT
  let padded_size := next_power_of_two num_elements
  let big_field_n_vars := Nat.log 2 padded_size
  let packed_size := 1 <<< big_field_n_vars
  let packed_values := (chunks16 data).map bytes_to_scalar
  let packed_values := resize packed_values packed_size 0
  Except.ok { packed_values := packed_values, total_n_vars := Nat.log 2 packed_values.length }

/-! ## Embedding of the erasure reconstructor (`src/frivail.rs`) -/

variable {F : Type} [Field F] [DecidableEq F]

/-- Rust `Field::invert(x).unwrap()`: `binius` field inversion returns `None`
on zero and the source unwraps it, so the zero case embeds as `none`
(a panic). -/
def invertUnwrap (x : F) : Option F :=
  if x = 0 then none else some x⁻¹

/-- `FriVail::interpolate_at_point`: Lagrange interpolation through the
`k = known.len()` known points, evaluated at `x_e`.  The two nested loops
accumulate `value` and `l_j` exactly as in the source; the
`invert().unwrap()` on the denominator propagates as `Option`. -/
def interpolate_at_point (x_e : F) (known : List (F × F)) (k : Nat) : Option F :=
  (List.range k).foldlM (fun value j =>
    let xj := (known.getD j (0, 0)).1
    let yj := (known.getD j (0, 0)).2
    ((List.range k).foldlM (fun lj m =>
        if m = j then some lj
        else
          let xm := (known.getD m (0, 0)).1
          (invertUnwrap (xj - xm)).map (fun inv => lj * (x_e - xm) * inv)) 1).map
      (fun lj => value + yj * lj)) 0

/-- `FriVail::reconstruct_codeword_naive` (the sequential, non-`parallel`
branch; the `parallel` branch computes the same values from the same fixed
`known` list and writes them to the same cells).  The domain point for index
`i` is `P::Scalar::from(i as u128)`, embedded as an abstract map
`toF : Nat → F`.  The outer `Option` is `none` when an
`invert().unwrap()` panics. -/
def reconstruct_codeword_naive (toF : Nat → F) (codeword : List F)
    (corrupted_indices : List Nat) : Option (Except String (List F)) :=
  let n := codeword.length
  let domain := (List.range n).map toF
  if corrupted_indices = [] then some (Except.ok codeword)
  else
    let known := ((List.range n).filter (fun i => ¬ corrupted_indices.contains i)).map
      (fun i => (domain.getD i 0, codeword.getD i 0))
    let k := known.length
    if k = 0 then some (Except.error "No known points available for reconstruction")
    else
      (corrupted_indices.foldlM (fun cw missing =>
        (interpolate_at_point (domain.getD missing 0) known k).map
          (fun value => cw.set missing value)) codeword).map Except.ok

/-- Modelled from the spec: membership of a buffer in the image of the
Reed–Solomon encoder.  The glossary defines Reed–Solomon encoding as
"evaluating a polynomial at more points than its degree + 1, over a
prescribed evaluation domain", and §4.K fixes the domain points as
`x_i = F.from(i as u128)`; the `binius` NTT encoder itself is external to
this repository.  A codeword of degree bound `d` is the evaluation of some
polynomial of degree at most `d` at the domain points. -/
def is_rs_codeword (toF : Nat → F) (d : Nat) (c : List F) : Prop :=
  ∃ p : Polynomial F, p.natDegree ≤ d ∧ ∀ i < c.length, c.getD i 0 = p.eval (toF i)

/-! ## Embedding of the Reed–Solomon decoder and its NTT loops
(`src/frivail.rs`) -/

/-- `P::LOG_WIDTH` for the default configuration: `FriVailDefault`
instantiates `P = B128`, a packed field of width one scalar, so
`LOG_WIDTH = 0`. -/
def LOG_WIDTH : Nat := 0

/-- FRI parameter record.  Of `FRIParams` only the three quantities read by
the encoder/decoder are embedded: `rs_code().log_dim()`,
`rs_code().log_inv_rate()` and `log_batch_size()`
(`rs_code().log_len() = log_dim + log_inv_rate`). -/
structure FRIParamsM where
  log_dim : Nat
  log_inv_rate : Nat
  log_batch_size : Nat
  deriving DecidableEq, Repr

/-- Modelled from the spec: `FriVail::initialize_fri_context` calls the
external `FRIParams::with_strategy(ntt, scheme, packed_buffer_log_len,
Some(0), log_inv_rate, ...)`, which fixes the Reed–Solomon dimension to the
packed buffer log-length, the inverse rate to `log_inv_rate` and the batch
size to the hardcoded `Some(0)` ("DAS doesn't need the data to be clubbed
into cosets"). -/
def initialize_fri_context (packed_buffer_log_len log_inv_rate : Nat) : FRIParamsM :=
  { log_dim := packed_buffer_log_len, log_inv_rate := log_inv_rate, log_batch_size := 0 }

/-- Pointwise update of a buffer embedded as a function (a write to one cell
of the mutable Rust slice). -/
def upd (c : Nat → F) (i : Nat) (x : F) : Nat → F :=
  fun j => if j = i then x else c j

/-- One inverse butterfly of `decode_batch`:
`v += u; u += v * twiddle` on cells `i0`, `i1`. -/
def butterfly_inv (t : F) (i0 i1 : Nat) (c : Nat → F) : Nat → F :=
  let u := c i0
  let v := c i1
  let v1 := v + u
  let u1 := u + v1 * t
  upd (upd c i0 u1) i1 v1

/-- Modelled from the spec: one forward butterfly of the external `binius`
additive NTT, `u += v * twiddle; v += u`, using "the same twiddles as
encoding" that `decode_batch` inverts (over a characteristic-two field this
is the two-sided inverse of `butterfly_inv`). -/
def butterfly_fwd (t : F) (i0 i1 : Nat) (c : Nat → F) : Nat → F :=
  let u := c i0
  let v := c i1
  let u1 := u + v * t
  let v1 := v + u1
  upd (upd c i0 u1) i1 v1

/-- The `(block, idx0)` double loop of one NTT layer in `decode_batch`:
for each `block < 1 << layer`, twiddle `tw layer block`,
`block_start = block << (log_d - layer)`, and for each
`idx0` in `block_start..block_start + block_size_half` the butterfly pair is
`(idx0, block_size_half | idx0)`. -/
def layerPairs (tw : Nat → Nat → F) (log_d layer : Nat) : List (F × Nat × Nat) :=
  (List.range (1 <<< layer)).flatMap (fun block =>
    let t := tw layer block
    let block_start := block <<< (log_d - layer)
    let block_size_half := 1 <<< (log_d - layer - 1)
    (List.range block_size_half).map (fun o =>
      let idx0 := block_start + o
      (t, idx0, block_size_half ||| idx0)))

/-- Apply a butterfly `B` at every `(twiddle, idx0, idx1)` triple of a list,
left to right (the loop order of the source). -/
def applyPairs (B : F → Nat → Nat → (Nat → F) → Nat → F)
    (ps : List (F × Nat × Nat)) (c : Nat → F) : Nat → F :=
  ps.foldl (fun c p => B p.1 p.2.1 p.2.2 c) c

/-- The layer loop of `decode_batch`:
`for layer in (skip_early..(log_d - skip_late)).rev()`, inverse butterflies
in each layer. -/
def inv_ntt (tw : Nat → Nat → F) (log_d skip_early skip_late : Nat)
    (c : Nat → F) : Nat → F :=
  ((List.range' skip_early (log_d - skip_late - skip_early)).reverse).foldl
    (fun c layer => applyPairs butterfly_inv (layerPairs tw log_d layer) c) c

/-- Modelled from the spec: the forward layer loop of the external `binius`
encoder — the same layers `skip_early..(log_d - skip_late)` that
`decode_batch` inverts, traversed in ascending order with forward
butterflies. -/
def fwd_ntt (tw : Nat → Nat → F) (log_d skip_early skip_late : Nat)
    (c : Nat → F) : Nat → F :=
  (List.range' skip_early (log_d - skip_late - skip_early)).foldl
    (fun c layer => applyPairs butterfly_fwd (layerPairs tw log_d layer) c) c

/-- Modelled from the spec: `binius_math::bit_reverse::bit_reverse_packed` on
a buffer of log-length `w` permutes the scalars by reversing the `w` index
bits ("Apply `bit_reverse` to undo the encoder's internal bit-reversal"). -/
def bit_reverse (w : Nat) (l : List F) : List F :=
  (List.range (2 ^ w)).map (fun i => l.getD (revBits w i) 0)

/-- `FriVail::decode_batch`: reject when the input length differs from
`1 << (log_len + log_batch_size - LOG_WIDTH)`, otherwise copy the data into
the output buffer and run the inverse-NTT butterfly layers
`(skip_early..(log_d - skip_late)).rev()` with `skip_early = log_inv`,
`skip_late = log_batch_size` in place. -/
def decode_batch (tw : Nat → Nat → F) (log_len log_inv log_batch : Nat)
    (data : List F) : Except String (List F) :=
  let data_log_len := log_len + log_batch
  let expected_data_len := if LOG_WIDTH ≤ data_log_len then 2 ^ (data_log_len - LOG_WIDTH) else 1
  if data.length ≠ expected_data_len then
    Except.error ("Unexpected data length: " ++ toString expected_data_len ++ " "
      ++ toString data.length ++ " ")
  else
    let c := fun i => data.getD i 0
    let c := inv_ntt tw data_log_len log_inv log_batch c
    Except.ok ((List.range (2 ^ (data_log_len - LOG_WIDTH))).map c)

/-- `FriVail::decode_codeword`: run `decode_batch` with
`log_len = rs_code.log_len() = log_dim + log_inv_rate`, truncate to the
first `1 << (log_dim + log_batch_size - LOG_WIDTH)` scalars
(`Vec::resize`), and undo the encoder's internal bit-reversal on the
`log_dim + log_batch_size` index bits. -/
def decode_codeword (tw : Nat → Nat → F) (p : FRIParamsM)
    (codeword : List F) : Except String (List F) :=
  match decode_batch tw (p.log_dim + p.log_inv_rate) p.log_inv_rate p.log_batch_size codeword with
  | Except.error e => Except.error e
  | Except.ok decoded =>
    let trim_len := 2 ^ (p.log_dim + p.log_batch_size - LOG_WIDTH)
    let decoded := resize decoded trim_len 0
    Except.ok (bit_reverse (p.log_dim + p.log_batch_size) decoded)

/-- `FriVail::encode_codeword`.  Modelled from the spec: the body calls the
external `rs_code.encode_batch(ntt, data, log_batch_size)`, specified as
"Reed–Solomon encode via additive NTT (expand by `2^log_inv_rate`, internal
bit-reversal)".  The message of log-length `log_dim + log_batch_size` is
bit-reversed, replicated into the `2^log_inv_rate` blocks of the codeword
buffer, and transformed by the forward NTT layers
`skip_early..(log_d - skip_late)` — exactly the layers and twiddles that
`decode_batch` later inverts. -/
def encode_codeword (tw : Nat → Nat → F) (p : FRIParamsM)
    (data : List F) : Except String (List F) :=
  let data_log_len := p.log_dim + p.log_batch_size
  let log_d := p.log_dim + p.log_batch_size + p.log_inv_rate
  let c0 : Nat → F := fun i => data.getD (revBits data_log_len (i % 2 ^ data_log_len)) 0
  let c := fwd_ntt tw log_d p.log_inv_rate p.log_batch_size c0
  Except.ok ((List.range (2 ^ (log_d - LOG_WIDTH))).map c)

/-! ## Embedding of the transcript and evaluation-point helpers
(`src/frivail.rs`) -/

/-- Modelled from the spec: the external `binius_transcript`
`VerifierTranscript` is an append-only byte log with a read position; the
challenger state is derived from the bytes and is not needed for the byte
round-trip. -/
structure VerifierTranscriptM where
  bytes : List Nat
  pos : Nat
  deriving DecidableEq, Repr

/-- `FriVailUtils::reconstruct_transcript_from_bytes`:
`VerifierTranscript::new(StdChallenger::default(), bytes)` — a fresh
transcript over the given bytes with nothing read yet. -/
def reconstruct_transcript_from_bytes (b : List Nat) : VerifierTranscriptM :=
  { bytes := b, pos := 0 }

/-- `FriVailUtils::get_transcript_bytes`: clone the transcript, take the
message reader's buffer, and copy out the `remaining` unread bytes
(returning the empty vector when nothing remains). -/
def get_transcript_bytes (t : VerifierTranscriptM) : List Nat :=
  let remaining := t.bytes.length - t.pos
  if remaining = 0 then [] else t.bytes.drop t.pos

/-- `FriVail::calculate_evaluation_point_random`.  Modelled from the spec:
`StdRng::from_seed([0; 32])` is a deterministic PRNG, so the sequence of
`B128` samples it yields is a fixed stream; `stdRngB128 i` is the `i`-th
scalar drawn from the stream of the all-zero seed.  The function draws
`n_vars` scalars from a freshly seeded generator. -/
def calculate_evaluation_point_random (stdRngB128 : Nat → F) (n_vars : Nat) :
    Except String (List F) :=
  Except.ok ((List.range n_vars).map (fun i => stdRngB128 i))

/-- Prime fact used by concrete witness instantiations over `ZMod 5`. -/
instance : Fact (Nat.Prime 5) := ⟨by norm_num⟩

/-! # Theorems -/

/-! ## Generic helpers -/

theorem foldlM_option_eq_some {α β : Type} (f : β → α → Option β) (g : β → α → β)
    (l : List α) (h : ∀ b : β, ∀ a ∈ l, f b a = some (g b a)) (b : β) :
    l.foldlM f b = some (l.foldl g b) := by
  induction l generalizing b with
  | nil => rfl
  | cons a l ih =>
    have ha := h b a (List.mem_cons_self a l)
    simp only [List.foldlM_cons, ha, Option.some_bind, List.foldl_cons]
    exact ih (fun b' a' ha' => h b' a' (List.mem_cons_of_mem a ha')) (g b a)

theorem list_range_map_sum {M : Type} [AddCommMonoid M] (f : Nat → M) (k : Nat) :
    ((List.range k).map f).sum = ∑ j ∈ Finset.range k, f j := by
  induction k with
  | zero => simp
  | succ k ih => simp [List.range_succ, Finset.sum_range_succ, ih]

/-! ## Lemmas about the byte → packed-MLE embedder -/

theorem chunks16_length (l : List Nat) : (chunks16 l).length = divCeil l.length 16 := by
  induction l using chunks16.induct with
  | case1 => simp [chunks16, divCeil]
  | case2 b rest ih =>
    rw [chunks16]
    simp only [List.length_cons, List.length_drop] at ih ⊢
    rw [ih]
    unfold divCeil
    omega

theorem chunks16_getD (l : List Nat) (i : Nat) :
    (chunks16 l).getD i [] = (l.drop (16 * i)).take 16 := by
  induction l using chunks16.induct generalizing i with
  | case1 => simp [chunks16]
  | case2 b rest ih =>
    rw [chunks16]
    cases i with
    | zero => simp
    | succ i =>
      simp only [List.getD_cons_succ, ih i, List.drop_drop]
      rw [show 16 + 16 * i = 16 * (i + 1) by ring]

theorem resize_length {α : Type} (l : List α) (n : Nat) (x : α) :
    (resize l n x).length = n := by
  unfold resize
  split
  · rename_i h
    simp only [List.length_take]
    omega
  · rename_i h
    simp only [List.length_append, List.length_replicate]
    omega

theorem resize_getD_lt {α : Type} (l : List α) (n : Nat) (x d : α) (i : Nat)
    (h1 : i < l.length) (h2 : i < n) : (resize l n x).getD i d = l.getD i d := by
  unfold resize
  split
  · simp [List.getD_eq_getElem?_getD, List.getElem?_take, h2]
  · simp [List.getD_eq_getElem?_getD, List.getElem?_append, h1]

theorem resize_getD_pad {α : Type} (l : List α) (n : Nat) (x : α) (i : Nat)
    (hl : l.length ≤ i) : (resize l n x).getD i x = x := by
  unfold resize
  split
  · rename_i h
    rcases Nat.lt_or_ge i n with hi | hi
    · omega
    · rw [List.getD_eq_getElem?_getD, List.getElem?_eq_none] <;> simp [hi]
  · rw [List.getD_eq_getElem?_getD, List.getElem?_append]
    split
    · omega
    · rcases Nat.lt_or_ge (i - l.length) (n - l.length) with hi | hi
      · simp [List.getElem?_replicate, hi]
      · rw [List.getElem?_eq_none (by simpa using hi)]
        rfl

theorem next_power_of_two_eq_shift (m : Nat) :
    1 <<< Nat.log 2 (next_power_of_two m) = next_power_of_two m := by
  rw [next_power_of_two, Nat.one_shiftLeft, Nat.log_pow (by norm_num)]

/-- Claim C4 (amended): `bytes_to_packed_mle` always returns `Ok`; the packed
vector has length `N = next_pow2(ceil(|data| / 128))`; each position `i`
that is both below the data-chunk count `ceil(|data| / 16)` and below `N`
holds the little-endian `u128` scalar of chunk `i`; every position at or
beyond the data-chunk count is the zero scalar.  (The unamended claim also
required every chunk index below `ceil(|data| / 16)` to be stored, but for
`|data| > 128 · N` the `Vec::resize` to `N` truncates the chunk list, so
trailing data chunks are dropped.) -/
theorem bytes_to_packed_mle_spec_aux (data : List Nat) :
    ∃ r : PackedMLE, bytes_to_packed_mle data = Except.ok r ∧
      r.packed_values.length = next_power_of_two (divCeil data.length 128) ∧
      (∀ i, i < divCeil data.length 16 → i < r.packed_values.length →
        r.packed_values.getD i 0 = bytes_to_scalar ((data.drop (16 * i)).take 16)) ∧
      (∀ i, divCeil data.length 16 ≤ i → r.packed_values.getD i 0 = 0) := by
  refine ⟨_, rfl, ?_, ?_, ?_⟩
  · simp only [resize_length]
    exact next_power_of_two_eq_shift _
  · intro i hi hlen
    simp only [resize_length, next_power_of_two_eq_shift] at hlen
    have hvals : ((chunks16 data).map bytes_to_scalar).length = divCeil data.length 16 := by
      simp [chunks16_length]
    rw [resize_getD_lt _ _ _ _ _ (by rw [hvals]; exact hi)
        (by rw [next_power_of_two_eq_shift]; simpa [next_power_of_two_eq_shift] using hlen)]
    rw [List.getD_eq_getElem?_getD, List.getElem?_map]
    have : (chunks16 data)[i]? = some ((chunks16 data).getD i []) := by
      rw [List.getElem?_eq_getElem (by rw [chunks16_length]; exact hi)]
      rw [List.getD_eq_getElem?_getD, List.getElem?_eq_getElem (by rw [chunks16_length]; exact hi)]
      rfl
    rw [this, chunks16_getD]
    rfl
  · intro i hi
    have hvals : ((chunks16 data).map bytes_to_scalar).length = divCeil data.length 16 := by
      simp [chunks16_length]
    exact resize_getD_pad _ _ _ _ (by rw [hvals]; exact hi)

theorem clog_two_one : Nat.clog 2 1 = 0 := by
  have h := Nat.clog_pow 2 0 (by norm_num)
  rw [pow_zero] at h
  exact h

theorem clog_two_two : Nat.clog 2 2 = 1 := by
  simpa using Nat.clog_pow 2 1 (by norm_num)

theorem bytes_to_packed_mle_bytes_per_length (data : List Nat) :
    ∃ r : PackedMLE, bytes_to_packed_mle_bytes_per data = Except.ok r ∧
      r.packed_values.length = next_power_of_two (divCeil data.length BYTES_PER_ELEMENT) := by
  refine ⟨_, rfl, ?_⟩
  simp only [resize_length]
  exact next_power_of_two_eq_shift _

/-- Claim C4 (amended): `bytes_to_packed_mle` always returns `Ok`; the packed
vector has length `N = next_pow2(ceil(|data| / 128))`; each position `i`
that is both below the data-chunk count `ceil(|data| / 16)` and below `N`
holds the little-endian `u128` scalar of chunk `i`; every position at or
beyond the data-chunk count is the zero scalar.  (The unamended claim also
required every chunk index below `ceil(|data| / 16)` to be stored, but for
`|data| > 128 · N` the `Vec::resize` to `N` truncates the chunk list, so
trailing data chunks are dropped.) -/
theorem bytes_to_packed_mle_spec (data : List Nat) :
    ∃ r : PackedMLE, bytes_to_packed_mle data = Except.ok r ∧
      r.packed_values.length = next_power_of_two (divCeil data.length 128) ∧
      (∀ i, i < divCeil data.length 16 → i < r.packed_values.length →
        r.packed_values.getD i 0 = bytes_to_scalar ((data.drop (16 * i)).take 16)) ∧
      (∀ i, divCeil data.length 16 ≤ i → r.packed_values.getD i 0 = 0) :=
  bytes_to_packed_mle_spec_aux data

set_option maxRecDepth 8000 in
/-- Claim C4, counterexample: for the 129-byte input `[1, 1, ..., 1]` the
packed vector has length `next_pow2(ceil(129 / 128)) = 2`, yet the data has
`ceil(129 / 16) = 9` chunks; chunk `2` is a nonzero scalar but position `2`
of `packed_values` holds the zero scalar, so data chunks beyond the padded
size are dropped, contradicting the claim that every chunk index below
`ceil(|data| / 16)` stores its little-endian scalar (no data chunk
dropped). -/
theorem bytes_to_packed_mle_drops_chunks : 2 < divCeil (List.replicate 129 1).length 16 ∧
    (bytes_to_packed_mle (List.replicate (129 : Nat) (1 : Nat))).map
      (fun r => r.packed_values.getD 2 0) = Except.ok 0 ∧
    bytes_to_scalar (((List.replicate (129 : Nat) (1 : Nat)).drop (16 * 2)).take 16) ≠ 0 := by
  refine ⟨by decide, ?_, by decide⟩
  obtain ⟨r, hok, hlen, -, -⟩ := bytes_to_packed_mle_spec_aux (List.replicate (129 : Nat) (1 : Nat))
  rw [hok]
  have hd : divCeil (List.replicate (129:Nat) (1:Nat)).length 128 = 2 := by decide
  rw [hd, next_power_of_two, clog_two_two] at hlen
  simp only [Except.map]
  rw [List.getD_eq_getElem?_getD, List.getElem?_eq_none (by omega)]
  rfl

/-- Claim C5 (amended): the implemented bits-per-element embedder and the
bytes-per-element variant produce the same packed vector for inputs of at
most 16 bytes (a single scalar chunk).  (The unamended claim allowed up to
128 bytes, but already at 17 bytes the two differ.) -/
theorem bytes_to_packed_mle_variants_agree (data : List Nat) (h : data.length ≤ 16) :
    bytes_to_packed_mle data = bytes_to_packed_mle_bytes_per data := by
  have hdc : divCeil data.length BITS_PER_ELEMENT = divCeil data.length BYTES_PER_ELEMENT := by
    unfold divCeil BITS_PER_ELEMENT BYTES_PER_ELEMENT
    omega
  simp only [bytes_to_packed_mle, bytes_to_packed_mle_bytes_per, hdc]

/-- Witness for claim C5's amended theorem at the one-byte input `[7]`. -/
theorem bytes_to_packed_mle_variants_agree_instance :
    (List.length [(7 : Nat)] ≤ 16) ∧
      bytes_to_packed_mle [7] = bytes_to_packed_mle_bytes_per [7] :=
  ⟨by decide, bytes_to_packed_mle_variants_agree [7] (by decide)⟩

set_option maxRecDepth 8000 in
/-- Claim C5, counterexample: at the 17-byte input `[1, 1, ..., 1]`
(`|data| ≤ 128`) the implemented bits-per-element embedder keeps a single
scalar while the bytes-per-element variant keeps two, so the packed vectors
differ. -/
theorem bytes_to_packed_mle_variants_differ : (List.replicate (17:Nat) (1:Nat)).length ≤ 128 ∧
    (bytes_to_packed_mle (List.replicate (17:Nat) (1:Nat))).map PackedMLE.packed_values ≠
      (bytes_to_packed_mle_bytes_per (List.replicate (17:Nat) (1:Nat))).map
        PackedMLE.packed_values := by
  refine ⟨by decide, fun h => ?_⟩
  obtain ⟨r1, e1, l1, -, -⟩ := bytes_to_packed_mle_spec_aux (List.replicate (17:Nat) (1:Nat))
  obtain ⟨r2, e2, l2⟩ := bytes_to_packed_mle_bytes_per_length (List.replicate (17:Nat) (1:Nat))
  rw [e1, e2] at h
  simp only [Except.map] at h
  have hpv : r1.packed_values = r2.packed_values := by exact Except.ok.inj h
  have hl := congrArg List.length hpv
  rw [l1, l2] at hl
  have h1 : divCeil (List.replicate (17:Nat) (1:Nat)).length 128 = 1 := by decide
  have h2 : divCeil (List.replicate (17:Nat) (1:Nat)).length BYTES_PER_ELEMENT = 2 := by decide
  rw [h1, h2, next_power_of_two, next_power_of_two, clog_two_one, clog_two_two] at hl
  simp at hl

/-! ## Lemmas about the erasure reconstructor -/

theorem foldl_add_sum {M : Type} [AddCommMonoid M] (w : Nat → M) (l : List Nat) (b : M) :
    l.foldl (fun acc j => acc + w j) b = b + (l.map w).sum := by
  induction l generalizing b with
  | nil => simp
  | cons a l ih => simp [ih, add_assoc]

theorem foldl_mul_skip (j : Nat) (A B : Nat → F) (l : List Nat) (b : F) :
    l.foldl (fun lj m => if m = j then lj else lj * A m * B m) b
      = b * ((l.filter (fun m => m ≠ j)).map (fun m => A m * B m)).prod := by
  induction l generalizing b with
  | nil => simp
  | cons a l ih =>
    by_cases ha : a = j
    · simp [ha, ih]
    · rw [List.foldl_cons, if_neg ha, ih, List.filter_cons, if_pos (by simp [ha]),
        List.map_cons, List.prod_cons]
      ring

theorem range_filter_map_prod (k j : Nat) (g : Nat → F) :
    (((List.range k).filter (fun m => m ≠ j)).map g).prod
      = ∏ m ∈ (Finset.range k).erase j, g m := by
  induction k with
  | zero => simp
  | succ k ih =>
    rw [List.range_succ, List.filter_append, List.map_append, List.prod_append, ih,
      Finset.range_succ]
    by_cases hj : j = k
    · subst hj
      rw [Finset.erase_insert (Finset.not_mem_range_self)]
      simp [Finset.erase_eq_of_not_mem Finset.not_mem_range_self]
    · rw [Finset.erase_insert_of_ne (fun hk => hj hk.symm)]
      rw [Finset.prod_insert (fun hk => Finset.not_mem_range_self (Finset.mem_of_mem_erase hk))]
      have : (List.filter (fun m => decide (m ≠ j)) [k]) = [k] := by
        simp [Ne.symm (fun h => hj h.symm)]
        exact fun h => hj h.symm
      rw [this]
      simp [mul_comm]

theorem interpolate_at_point_eq (x_e : F) (known : List (F × F))
    (hnd : ∀ j m, j < known.length → m < known.length → j ≠ m →
      (known.getD j (0, 0)).1 ≠ (known.getD m (0, 0)).1) :
    interpolate_at_point x_e known known.length
      = some (∑ j ∈ Finset.range known.length, (known.getD j (0, 0)).2 *
          ∏ m ∈ (Finset.range known.length).erase j,
            (x_e - (known.getD m (0, 0)).1) *
              ((known.getD j (0, 0)).1 - (known.getD m (0, 0)).1)⁻¹) := by
  unfold interpolate_at_point
  refine Eq.trans (foldlM_option_eq_some _
    (fun value j => value + (known.getD j (0, 0)).2 *
      ∏ m ∈ (Finset.range known.length).erase j,
        (x_e - (known.getD m (0, 0)).1) *
          ((known.getD j (0, 0)).1 - (known.getD m (0, 0)).1)⁻¹) _ ?_ 0) ?_
  · intro b j hj
    rw [List.mem_range] at hj
    dsimp only
    have hinner : (List.range known.length).foldlM (fun lj m =>
        if m = j then some lj
        else (invertUnwrap ((known.getD j (0, 0)).1 - (known.getD m (0, 0)).1)).map
          (fun inv => lj * (x_e - (known.getD m (0, 0)).1) * inv)) 1
        = some (∏ m ∈ (Finset.range known.length).erase j,
            (x_e - (known.getD m (0, 0)).1) *
              ((known.getD j (0, 0)).1 - (known.getD m (0, 0)).1)⁻¹) := by
      refine Eq.trans (foldlM_option_eq_some _
        (fun lj m => if m = j then lj
          else lj * (x_e - (known.getD m (0, 0)).1) *
            ((known.getD j (0, 0)).1 - (known.getD m (0, 0)).1)⁻¹) _ ?_ 1) ?_
      · intro b' m hm
        rw [List.mem_range] at hm
        by_cases hmj : m = j
        · simp [hmj]
        · have hne : (known.getD j (0, 0)).1 - (known.getD m (0, 0)).1 ≠ 0 :=
            sub_ne_zero_of_ne (hnd j m hj hm (fun h => hmj h.symm))
          simp only [if_neg hmj, invertUnwrap, if_neg hne, Option.map_some']
      · rw [foldl_mul_skip j (fun m => x_e - (known.getD m (0, 0)).1)
          (fun m => ((known.getD j (0, 0)).1 - (known.getD m (0, 0)).1)⁻¹)]
        rw [range_filter_map_prod]
        rw [one_mul]
    rw [hinner]
    rfl
  · rw [foldl_add_sum, list_range_map_sum, zero_add]

theorem interpolate_at_point_isSome (x_e : F) (known : List (F × F))
    (hnd : ∀ j m, j < known.length → m < known.length → j ≠ m →
      (known.getD j (0, 0)).1 ≠ (known.getD m (0, 0)).1) :
    (interpolate_at_point x_e known known.length).isSome = true := by
  rw [interpolate_at_point_eq x_e known hnd]
  rfl

theorem lagrange_eval_eq (p : Polynomial F) (v : Nat → F) (k : Nat) (x : F)
    (hinj : ∀ j m, j < k → m < k → j ≠ m → v j ≠ v m)
    (hdeg : p.degree < (k : WithBot Nat)) :
    ∑ j ∈ Finset.range k, p.eval (v j) *
        ∏ m ∈ (Finset.range k).erase j, (x - v m) * (v j - v m)⁻¹ = p.eval x := by
  have hvs : Set.InjOn v (Finset.range k) := by
    intro a ha b hb hab
    by_contra hne
    exact hinj a b (by simpa using ha) (by simpa using hb) hne hab
  have h := Lagrange.eq_interpolate (v := v) (s := Finset.range k) hvs
    (by rw [Finset.card_range]; exact hdeg)
  have hx := congrArg (Polynomial.eval x) h
  rw [Lagrange.interpolate_apply, Polynomial.eval_finset_sum] at hx
  simp only [Polynomial.eval_mul, Polynomial.eval_C, Lagrange.basis, Polynomial.eval_prod,
    Lagrange.basisDivisor, Polynomial.eval_sub, Polynomial.eval_X] at hx
  rw [hx]
  refine Finset.sum_congr rfl (fun j hj => ?_)
  refine congrArg (fun z => p.eval (v j) * z) (Finset.prod_congr rfl (fun m hm => ?_))
  ring

theorem interpolate_at_point_correct (x_e : F) (known : List (F × F)) (p : Polynomial F)
    (hnd : ∀ j m, j < known.length → m < known.length → j ≠ m →
      (known.getD j (0, 0)).1 ≠ (known.getD m (0, 0)).1)
    (hval : ∀ j, j < known.length → (known.getD j (0, 0)).2 = p.eval (known.getD j (0, 0)).1)
    (hdeg : p.degree < (known.length : WithBot Nat)) :
    interpolate_at_point x_e known known.length = some (p.eval x_e) := by
  rw [interpolate_at_point_eq x_e known hnd]
  congr 1
  rw [← lagrange_eval_eq p (fun j => (known.getD j (0, 0)).1) known.length x_e hnd hdeg]
  refine Finset.sum_congr rfl (fun j hj => ?_)
  rw [hval j (by simpa using hj)]

theorem domain_getD (toF : Nat → F) (n i : Nat) (h : i < n) :
    ((List.range n).map toF).getD i 0 = toF i := by
  rw [List.getD_eq_getElem?_getD, List.getElem?_map, List.getElem?_range h]
  rfl

theorem filter_range_length_ge (n : Nat) (E : List Nat) :
    n - E.length ≤ ((List.range n).filter (fun i => ¬ E.contains i)).length := by
  have hsplit := List.length_eq_countP_add_countP (fun i => E.contains i) (List.range n)
  rw [List.length_range, List.countP_eq_length_filter, List.countP_eq_length_filter] at hsplit
  have hsub : ((List.range n).filter (fun i => E.contains i)).length ≤ E.length := by
    have hnd : ((List.range n).filter (fun i => E.contains i)).Nodup :=
      (List.nodup_range n).filter _
    calc ((List.range n).filter (fun i => E.contains i)).length
        = ((List.range n).filter (fun i => E.contains i)).toFinset.card :=
          (List.toFinset_card_of_nodup hnd).symm
      _ ≤ E.toFinset.card := by
          refine Finset.card_le_card (fun a ha => ?_)
          rw [List.mem_toFinset] at ha ⊢
          have := (List.mem_filter.mp ha).2
          simpa using this
      _ ≤ E.length := List.toFinset_card_le E
  omega

theorem map_known_getD (toF : Nat → F) (cw : List F) (S : List Nat) (j : Nat)
    (hj : j < S.length) (hS : S.getD j 0 < cw.length) :
    ((S.map (fun i => (((List.range cw.length).map toF).getD i 0, cw.getD i 0))).getD j (0, 0))
      = (toF (S.getD j 0), cw.getD (S.getD j 0) 0) := by
  have hj' : S.getD j 0 = S[j] := List.getD_eq_getElem S 0 hj
  rw [List.getD_eq_getElem?_getD, List.getElem?_map, List.getElem?_eq_getElem hj,
    Option.map_some', Option.getD_some, hj', domain_getD toF cw.length (S[j]) (hj' ▸ hS)]

theorem known_nodes_distinct (toF : Nat → F) (cw : List F) (E : List Nat)
    (hinj : ∀ i j, i < cw.length → j < cw.length → toF i = toF j → i = j) :
    ∀ j m, j < (((List.range cw.length).filter (fun i => ¬ E.contains i)).map
        (fun i => (((List.range cw.length).map toF).getD i 0, cw.getD i 0))).length →
      m < (((List.range cw.length).filter (fun i => ¬ E.contains i)).map
        (fun i => (((List.range cw.length).map toF).getD i 0, cw.getD i 0))).length →
      j ≠ m →
      ((((List.range cw.length).filter (fun i => ¬ E.contains i)).map
        (fun i => (((List.range cw.length).map toF).getD i 0, cw.getD i 0))).getD j (0, 0)).1 ≠
      ((((List.range cw.length).filter (fun i => ¬ E.contains i)).map
        (fun i => (((List.range cw.length).map toF).getD i 0, cw.getD i 0))).getD m (0, 0)).1 := by
  intro j m hj hm hjm
  rw [List.length_map] at hj hm
  have hSnd : ((List.range cw.length).filter (fun i => ¬ E.contains i)).Nodup :=
    (List.nodup_range cw.length).filter _
  set S := (List.range cw.length).filter (fun i => ¬ E.contains i) with hSdef
  have hmemj : S.getD j 0 ∈ S := by
    rw [List.getD_eq_getElem S 0 hj]
    exact List.getElem_mem hj
  have hmemm : S.getD m 0 ∈ S := by
    rw [List.getD_eq_getElem S 0 hm]
    exact List.getElem_mem hm
  have hj' : S.getD j 0 < cw.length := by
    have := (List.mem_filter.mp hmemj).1
    exact List.mem_range.mp this
  have hm' : S.getD m 0 < cw.length := by
    have := (List.mem_filter.mp hmemm).1
    exact List.mem_range.mp this
  rw [map_known_getD toF cw S j hj hj', map_known_getD toF cw S m hm hm']
  intro hEq
  have := hinj _ _ hj' hm' hEq
  rw [List.getD_eq_getElem S 0 hj, List.getD_eq_getElem S 0 hm] at this
  exact hjm (hSnd.getElem_inj_iff.mp this)

theorem foldlM_option_isSome {α β : Type} (f : β → α → Option β) (l : List α)
    (h : ∀ b : β, ∀ a ∈ l, (f b a).isSome = true) (b : β) :
    (l.foldlM f b).isSome = true := by
  induction l generalizing b with
  | nil => rfl
  | cons a l ih =>
    have ha := h b a (List.mem_cons_self a l)
    obtain ⟨v, hv⟩ := Option.isSome_iff_exists.mp ha
    simp only [List.foldlM_cons, hv, Option.some_bind]
    exact ih (fun b' a' ha' => h b' a' (List.mem_cons_of_mem a ha')) v

theorem foldl_set_length (val : Nat → F) (E : List Nat) (cw : List F) :
    (E.foldl (fun cw e => cw.set e (val e)) cw).length = cw.length := by
  induction E generalizing cw with
  | nil => rfl
  | cons e E ih => rw [List.foldl_cons, ih, List.length_set]

theorem foldl_set_getD (val : Nat → F) (E : List Nat) (cw : List F) (i : Nat) :
    (E.foldl (fun cw e => cw.set e (val e)) cw).getD i 0
      = if i ∈ E ∧ i < cw.length then val i else cw.getD i 0 := by
  induction E generalizing cw with
  | nil => simp
  | cons e E ih =>
    rw [List.foldl_cons, ih, List.length_set]
    by_cases hlen : i < cw.length
    · by_cases hie : i = e
      · subst hie
        by_cases hiE : i ∈ E
        · rw [if_pos ⟨hiE, hlen⟩, if_pos ⟨List.mem_cons_self i E, hlen⟩]
        · rw [if_neg (fun h => hiE h.1), if_pos ⟨List.mem_cons_self i E, hlen⟩]
          rw [List.getD_eq_getElem?_getD, List.getElem?_set_self hlen, Option.getD_some]
      · by_cases hiE : i ∈ E
        · rw [if_pos ⟨hiE, hlen⟩, if_pos ⟨List.mem_cons_of_mem e hiE, hlen⟩]
        · rw [if_neg (fun h => hiE h.1),
            if_neg (fun h => (List.mem_cons.mp h.1).elim hie hiE)]
          rw [List.getD_eq_getElem?_getD, List.getElem?_set_ne (fun h => hie h.symm),
            ← List.getD_eq_getElem?_getD]
    · rw [if_neg (fun h => hlen h.2), if_neg (fun h => hlen h.2)]
      rw [List.getD_eq_getElem?_getD, List.getD_eq_getElem?_getD]
      congr 1
      rw [List.getElem?_set]
      by_cases hei : e = i
      · rw [if_pos hei, if_neg (by omega), List.getElem?_eq_none (by omega)]
      · rw [if_neg hei]

theorem foldlM_set_eq (f : Nat → Option F) (val : Nat → F) (E : List Nat)
    (hf : ∀ e ∈ E, f e = some (val e)) (cw : List F) :
    E.foldlM (fun cw missing => (f missing).map (fun value => cw.set missing value)) cw
      = some (E.foldl (fun cw e => cw.set e (val e)) cw) :=
  foldlM_option_eq_some _ _ _ (fun b a ha => by rw [hf a ha]; rfl) cw

theorem foldlM_set_frame (f : Nat → Option F) (E : List Nat) (cw r : List F)
    (h : E.foldlM (fun cw missing => (f missing).map (fun value => cw.set missing value)) cw
      = some r) :
    r.length = cw.length ∧ ∀ i, ¬ i ∈ E → r.getD i 0 = cw.getD i 0 := by
  induction E generalizing cw with
  | nil =>
    have : cw = r := by simpa using h
    subst this
    exact ⟨rfl, fun i _ => rfl⟩
  | cons e E ih =>
    rw [List.foldlM_cons] at h
    rw [show ((f e).map (fun value => cw.set e value) >>= fun init =>
        List.foldlM (fun cw missing => (f missing).map (fun value => cw.set missing value)) init E)
      = Option.bind ((f e).map (fun value => cw.set e value)) (fun init =>
        List.foldlM (fun cw missing => (f missing).map (fun value => cw.set missing value)) init E)
      from rfl] at h
    rw [Option.bind_eq_some] at h
    obtain ⟨init, hinit, hrest⟩ := h
    rw [Option.map_eq_some'] at hinit
    obtain ⟨v, -, hv⟩ := hinit
    obtain ⟨hlen, hframe⟩ := ih (cw.set e v) (by rw [hv]; exact hrest)
    refine ⟨by rw [hlen, List.length_set], fun i hi => ?_⟩
    have hie : i ≠ e := fun h => hi (h ▸ List.mem_cons_self e E)
    have hiE : ¬ i ∈ E := fun h => hi (List.mem_cons_of_mem e h)
    rw [hframe i hiE, List.getD_eq_getElem?_getD,
      List.getElem?_set_ne (fun h => hie h.symm), ← List.getD_eq_getElem?_getD]

/-- Claim C7: when `reconstruct_codeword_naive` returns `Ok`, the buffer
keeps its length, and every position whose index is not in the erasure list
holds exactly the value it held before the call — only erased cells are
written. -/
theorem reconstruct_codeword_naive_frame (toF : Nat → F) (c : List F) (E : List Nat) (r : List F)
    (h : reconstruct_codeword_naive toF c E = some (Except.ok r)) :
    r.length = c.length ∧ ∀ i, ¬ i ∈ E → r.getD i 0 = c.getD i 0 := by
  unfold reconstruct_codeword_naive at h
  dsimp only at h
  by_cases hE : E = []
  · rw [if_pos hE] at h
    have hcr : c = r := Except.ok.inj (Option.some.inj h)
    subst hcr
    exact ⟨rfl, fun i _ => rfl⟩
  · rw [if_neg hE] at h
    split at h
    · exact Except.noConfusion (Option.some.inj h)
    · rw [Option.map_eq_some'] at h
      obtain ⟨out, hout, hok⟩ := h
      have hr : out = r := Except.ok.inj hok
      subst hr
      exact foldlM_set_frame _ E c out hout

/-- Witness for claim C7's theorem: over `ZMod 5` with domain map `i ↦ i`,
reconstructing `[1, 2]` with erasure list `[0]` succeeds with `[2, 2]`, and
the untouched position `1` keeps its value. -/
theorem reconstruct_codeword_naive_frame_instance :
    ([2, 2] : List (ZMod 5)).length = ([1, 2] : List (ZMod 5)).length ∧
      ∀ i, ¬ i ∈ [0] →
        ([2, 2] : List (ZMod 5)).getD i 0 = ([1, 2] : List (ZMod 5)).getD i 0 :=
  reconstruct_codeword_naive_frame (fun i => (i : ZMod 5)) [1, 2] [0] [2, 2] (by rfl)

theorem reconstruct_step_isSome (toF : Nat → F) (c : List F) (E : List Nat)
    (hinj : ∀ i j, i < c.length → j < c.length → toF i = toF j → i = j)
    (cw : List F) (missing : Nat) :
    ((interpolate_at_point (((List.range c.length).map toF).getD missing 0)
      (((List.range c.length).filter (fun i => ¬ E.contains i)).map
        (fun i => (((List.range c.length).map toF).getD i 0, c.getD i 0)))
      (((List.range c.length).filter (fun i => ¬ E.contains i)).map
        (fun i => (((List.range c.length).map toF).getD i 0, c.getD i 0))).length).map
      (fun value => cw.set missing value)).isSome = true := by
  have hsome := interpolate_at_point_isSome
    (((List.range c.length).map toF).getD missing 0) _
    (known_nodes_distinct toF c E hinj)
  obtain ⟨v, hv⟩ := Option.isSome_iff_exists.mp hsome
  rw [hv]
  rfl

/-- Claim C8: with the domain points `from(i as u128)` injective on
`[0, n)` (distinct integers map to distinct scalars) and all erased indices
below `n`, every `invert().unwrap()` performed inside
`interpolate_at_point` during `reconstruct_codeword_naive` receives a
nonzero Lagrange denominator, so the call never panics. -/
theorem reconstruct_codeword_naive_no_panic (toF : Nat → F) (c : List F) (E : List Nat)
    (hE : ∀ e ∈ E, e < c.length)
    (hinj : ∀ i j, i < c.length → j < c.length → toF i = toF j → i = j) :
    (reconstruct_codeword_naive toF c E).isSome = true := by
  unfold reconstruct_codeword_naive
  dsimp only
  by_cases hEnil : E = []
  · rw [if_pos hEnil]
    rfl
  · rw [if_neg hEnil]
    split
    · rfl
    · have hfold := foldlM_option_isSome _ E
        (fun (cw : List F) missing (hm : missing ∈ E) =>
          reconstruct_step_isSome toF c E hinj cw missing) c
      obtain ⟨out, hout⟩ := Option.isSome_iff_exists.mp hfold
      rw [hout]
      rfl

/-- Witness for claim C8's theorem: over `ZMod 5` with `toF i = i` (injective
below `3`), reconstructing `[1, 2, 3]` with erasure list `[1]` does not
panic. -/
theorem reconstruct_codeword_naive_no_panic_instance :
    (∀ e ∈ [1], e < ([1, 2, 3] : List (ZMod 5)).length) ∧
      (reconstruct_codeword_naive (fun i => (i : ZMod 5)) [1, 2, 3] [1]).isSome = true :=
  ⟨by decide, reconstruct_codeword_naive_no_panic (fun i => (i : ZMod 5)) [1, 2, 3] [1]
    (by decide)
    (by
      intro i j hi hj hEq
      simp only [List.length_cons, List.length_nil] at hi hj
      interval_cases i <;> interval_cases j <;> revert hEq <;> decide)⟩

/-- Claim C3 (amended): with erased indices below `n` and injective domain
points, `reconstruct_codeword_naive` returns an error if and only if the
erasure list is nonempty and the known-point set
`K = {i ∈ [0, n) : i ∉ E}` is empty; in every other case it returns `Ok`.
(The unamended claim said "error iff `K = ∅`", but for the empty buffer with
an empty erasure list the source returns `Ok(())` from its early
`corrupted_indices.is_empty()` check even though `K` is empty.) -/
theorem reconstruct_codeword_naive_error_iff (toF : Nat → F) (c : List F) (E : List Nat)
    (hE : ∀ e ∈ E, e < c.length)
    (hinj : ∀ i j, i < c.length → j < c.length → toF i = toF j → i = j) :
    ((∃ msg, reconstruct_codeword_naive toF c E = some (Except.error msg)) ↔
        E ≠ [] ∧ (List.range c.length).filter (fun i => ¬ E.contains i) = []) ∧
      (¬ (E ≠ [] ∧ (List.range c.length).filter (fun i => ¬ E.contains i) = []) →
        ∃ r, reconstruct_codeword_naive toF c E = some (Except.ok r)) := by
  constructor
  · constructor
    · rintro ⟨msg, hmsg⟩
      unfold reconstruct_codeword_naive at hmsg
      dsimp only at hmsg
      by_cases hEnil : E = []
      · rw [if_pos hEnil] at hmsg
        exact Except.noConfusion (Option.some.inj hmsg)
      · rw [if_neg hEnil] at hmsg
        split at hmsg
        · rename_i hk
          rw [List.length_map, List.length_eq_zero] at hk
          exact ⟨hEnil, hk⟩
        · rw [Option.map_eq_some'] at hmsg
          obtain ⟨out, -, hok⟩ := hmsg
          exact Except.noConfusion hok
    · rintro ⟨hEne, hfil⟩
      refine ⟨"No known points available for reconstruction", ?_⟩
      unfold reconstruct_codeword_naive
      dsimp only
      rw [if_neg hEne, hfil]
      rfl
  · rintro hncond
    unfold reconstruct_codeword_naive
    dsimp only
    by_cases hEnil : E = []
    · rw [if_pos hEnil]
      exact ⟨c, rfl⟩
    · rw [if_neg hEnil]
      have hfil : ¬ (List.range c.length).filter (fun i => ¬ E.contains i) = [] :=
        fun h => hncond ⟨hEnil, h⟩
      have hk : ¬ (((List.range c.length).filter (fun i => ¬ E.contains i)).map
          (fun i => (((List.range c.length).map toF).getD i 0, c.getD i 0))).length = 0 := by
        rw [List.length_map, List.length_eq_zero]
        exact hfil
      rw [if_neg hk]
      have hfold := foldlM_option_isSome _ E
        (fun (cw : List F) missing (hm : missing ∈ E) =>
          reconstruct_step_isSome toF c E hinj cw missing) c
      obtain ⟨out, hout⟩ := Option.isSome_iff_exists.mp hfold
      refine ⟨out, ?_⟩
      rw [hout]
      rfl

/-- Witness for claim C3's amended theorem: over `ZMod 5` with `toF i = i`,
buffer `[1, 2, 3]` and erasure list `[1]` (nonempty known set). -/
theorem reconstruct_codeword_naive_error_iff_instance :
    (∀ e ∈ [1], e < ([1, 2, 3] : List (ZMod 5)).length) ∧
      (((∃ msg, reconstruct_codeword_naive (fun i => (i : ZMod 5)) [1, 2, 3] [1]
          = some (Except.error msg)) ↔
        [1] ≠ ([] : List Nat) ∧
          (List.range ([1, 2, 3] : List (ZMod 5)).length).filter
            (fun i => ¬ ([1] : List Nat).contains i) = []) ∧
      (¬ ([1] ≠ ([] : List Nat) ∧
          (List.range ([1, 2, 3] : List (ZMod 5)).length).filter
            (fun i => ¬ ([1] : List Nat).contains i) = []) →
        ∃ r, reconstruct_codeword_naive (fun i => (i : ZMod 5)) [1, 2, 3] [1]
          = some (Except.ok r))) :=
  ⟨by decide, reconstruct_codeword_naive_error_iff (fun i => (i : ZMod 5)) [1, 2, 3] [1]
    (by decide)
    (by
      intro i j hi hj hEq
      simp only [List.length_cons, List.length_nil] at hi hj
      interval_cases i <;> interval_cases j <;> revert hEq <;> decide)⟩

/-- Claim C3, counterexample: for the empty codeword buffer (`n = 0`) and
the empty erasure list, the known-point set `K` is empty but the call
returns `Ok` (the source returns early when `corrupted_indices` is empty),
refuting "returns an error iff `K` is empty". -/
theorem reconstruct_codeword_naive_error_iff_cex :
    reconstruct_codeword_naive (fun i => (i : ZMod 5)) ([] : List (ZMod 5)) []
        = some (Except.ok []) ∧
      (List.range (List.length ([] : List (ZMod 5)))).filter
        (fun i => ¬ ([] : List Nat).contains i) = [] :=
  ⟨rfl, rfl⟩

/-- Claim C2: for a codeword `c` in the image of the Reed–Solomon encoder
(modelled per the spec as evaluations of a polynomial of degree at most `d`
at the domain points `toF i`), an erasure set `E` with
`|E| < n - d - 1` and `|E| < n`, and a corrupted buffer that agrees with
`c` outside `E`, `reconstruct_codeword_naive` returns `Ok` and the buffer
afterwards equals `c` at every position. -/
theorem reconstruct_codeword_naive_recovers (toF : Nat → F) (c corrupted : List F)
    (E : List Nat) (d : Nat)
    (hlen : corrupted.length = c.length)
    (hcode : is_rs_codeword toF d c)
    (hE : ∀ e ∈ E, e < c.length)
    (hEcard : E.length < c.length - d - 1)
    (hEn : E.length < c.length)
    (hcorr : ∀ i, ¬ i ∈ E → corrupted.getD i 0 = c.getD i 0)
    (hinj : ∀ i j, i < c.length → j < c.length → toF i = toF j → i = j) :
    reconstruct_codeword_naive toF corrupted E = some (Except.ok c) := by
  obtain ⟨p, hpdeg, hpeval⟩ := hcode
  unfold reconstruct_codeword_naive
  dsimp only
  by_cases hEnil : E = []
  · rw [if_pos hEnil]
    have hceq : corrupted = c := by
      refine List.ext_getElem hlen (fun i h1 h2 => ?_)
      have := hcorr i (by rw [hEnil]; exact List.not_mem_nil i)
      rwa [List.getD_eq_getElem corrupted 0 h1, List.getD_eq_getElem c 0 h2] at this
    rw [hceq]
  · rw [if_neg hEnil]
    have hinj' : ∀ i j, i < corrupted.length → j < corrupted.length → toF i = toF j → i = j := by
      rw [hlen]
      exact hinj
    have hge := filter_range_length_ge corrupted.length E
    have hk : ¬ (((List.range corrupted.length).filter (fun i => ¬ E.contains i)).map
        (fun i => (((List.range corrupted.length).map toF).getD i 0, corrupted.getD i 0))).length
        = 0 := by
      rw [List.length_map]
      omega
    rw [if_neg hk]
    have hstep : ∀ e ∈ E,
        interpolate_at_point (((List.range corrupted.length).map toF).getD e 0)
          (((List.range corrupted.length).filter (fun i => ¬ E.contains i)).map
            (fun i => (((List.range corrupted.length).map toF).getD i 0, corrupted.getD i 0)))
          (((List.range corrupted.length).filter (fun i => ¬ E.contains i)).map
            (fun i => (((List.range corrupted.length).map toF).getD i 0,
              corrupted.getD i 0))).length
          = some (p.eval (toF e)) := by
      intro e he
      have he' : e < corrupted.length := by rw [hlen]; exact hE e he
      rw [domain_getD toF corrupted.length e he']
      refine interpolate_at_point_correct _ _ p
        (known_nodes_distinct toF corrupted E hinj') ?_ ?_
      · intro j hj
        rw [List.length_map] at hj
        have hmemj : ((List.range corrupted.length).filter
            (fun i => ¬ E.contains i)).getD j 0 ∈ (List.range corrupted.length).filter
            (fun i => ¬ E.contains i) := by
          rw [List.getD_eq_getElem _ 0 hj]
          exact List.getElem_mem hj
        have hj1 : ((List.range corrupted.length).filter (fun i => ¬ E.contains i)).getD j 0
            < corrupted.length := List.mem_range.mp (List.mem_filter.mp hmemj).1
        have hjE : ¬ ((List.range corrupted.length).filter
            (fun i => ¬ E.contains i)).getD j 0 ∈ E := by
          have := (List.mem_filter.mp hmemj).2
          simpa using this
        rw [map_known_getD toF corrupted _ j hj hj1]
        rw [hcorr _ hjE]
        exact hpeval _ (by rw [← hlen]; exact hj1)
      · rw [List.length_map]
        have hdlt : p.natDegree < ((List.range corrupted.length).filter
            (fun i => ¬ E.contains i)).length := by omega
        exact lt_of_le_of_lt Polynomial.degree_le_natDegree (by exact_mod_cast hdlt)
    rw [foldlM_set_eq _ (fun e => p.eval (toF e)) E hstep corrupted]
    have hfin : E.foldl (fun cw e => cw.set e (p.eval (toF e))) corrupted = c := by
      refine List.ext_getElem (by rw [foldl_set_length, hlen]) (fun i h1 h2 => ?_)
      rw [← List.getD_eq_getElem _ 0 h1, ← List.getD_eq_getElem _ 0 h2]
      rw [foldl_set_getD]
      by_cases hiE : i ∈ E
      · rw [if_pos ⟨hiE, by rw [hlen]; exact h2⟩]
        exact (hpeval i h2).symm
      · rw [if_neg (fun h => hiE h.1)]
        exact hcorr i hiE
    rw [hfin]
    rfl

/-- Witness for claim C2's theorem: over `ZMod 5` with `toF i = i`, the
constant codeword `[3, 3, 3, 3]` (degree bound `0`), erasure set `[0]`
(so `|E| = 1 < 4 - 0 - 1`), and the corrupted buffer `[0, 3, 3, 3]` are
reconstructed back to `[3, 3, 3, 3]`. -/
theorem reconstruct_codeword_naive_recovers_instance :
    is_rs_codeword (fun i => (i : ZMod 5)) 0 ([3, 3, 3, 3] : List (ZMod 5)) ∧
      ([0] : List Nat).length < ([3, 3, 3, 3] : List (ZMod 5)).length - 0 - 1 ∧
      reconstruct_codeword_naive (fun i => (i : ZMod 5)) [0, 3, 3, 3] [0]
        = some (Except.ok [3, 3, 3, 3]) := by
  have hcode : is_rs_codeword (fun i => (i : ZMod 5)) 0 ([3, 3, 3, 3] : List (ZMod 5)) := by
    refine ⟨Polynomial.C 3, by simp, fun i hi => ?_⟩
    rw [Polynomial.eval_C]
    simp only [List.length_cons, List.length_nil] at hi
    interval_cases i <;> rfl
  refine ⟨hcode, by decide, ?_⟩
  refine reconstruct_codeword_naive_recovers (fun i => (i : ZMod 5)) [3, 3, 3, 3] [0, 3, 3, 3]
    [0] 0 (by decide) hcode (by decide) (by decide) (by decide) ?_ ?_
  · intro i hi
    match i with
    | 0 => exact absurd (by decide) hi
    | 1 => rfl
    | 2 => rfl
    | 3 => rfl
    | n + 4 => rfl
  · intro i j hi hj hEq
    simp only [List.length_cons, List.length_nil] at hi hj
    interval_cases i <;> interval_cases j <;> revert hEq <;> decide

/-! ## Lemmas about bit reversal and the butterfly index arithmetic -/

theorem revBits_lt (w i : Nat) : revBits w i < 2 ^ w := by
  induction w generalizing i with
  | zero => simp [revBits]
  | succ w ih =>
    have h1 := ih (i / 2)
    have h2 : i % 2 ≤ 1 := by omega
    have h3 : (i % 2) * 2 ^ w ≤ 1 * 2 ^ w := Nat.mul_le_mul_right _ h2
    have hdef : revBits (w + 1) i = revBits w (i / 2) + (i % 2) * 2 ^ w := rfl
    rw [hdef, pow_succ]
    omega

theorem revBits_high (w a bbit : Nat) (ha : a < 2 ^ w) (hb : bbit ≤ 1) :
    revBits (w + 1) (a + bbit * 2 ^ w) = 2 * revBits w a + bbit := by
  induction w generalizing a bbit with
  | zero =>
    have ha0 : a = 0 := by omega
    subst ha0
    show revBits 0 ((0 + bbit * 1) / 2) + (0 + bbit * 1) % 2 * 1 = 2 * revBits 0 0 + bbit
    simp [revBits]
    omega
  | succ w ih =>
    have hdiv : (a + bbit * 2 ^ (w + 1)) / 2 = a / 2 + bbit * 2 ^ w := by
      rw [pow_succ]
      rw [show a + bbit * (2 ^ w * 2) = a + bbit * 2 ^ w * 2 by ring]
      omega
    have hmod : (a + bbit * 2 ^ (w + 1)) % 2 = a % 2 := by
      rw [pow_succ]
      rw [show a + bbit * (2 ^ w * 2) = a + bbit * 2 ^ w * 2 by ring]
      omega
    show revBits (w + 1) ((a + bbit * 2 ^ (w + 1)) / 2)
        + ((a + bbit * 2 ^ (w + 1)) % 2) * 2 ^ (w + 1)
      = 2 * revBits (w + 1) a + bbit
    rw [hdiv, hmod, ih (a / 2) bbit (by omega) hb]
    show 2 * revBits w (a / 2) + bbit + a % 2 * 2 ^ (w + 1)
      = 2 * (revBits w (a / 2) + (a % 2) * 2 ^ w) + bbit
    rw [pow_succ]
    ring

theorem revBits_revBits (w i : Nat) (h : i < 2 ^ w) : revBits w (revBits w i) = i := by
  induction w generalizing i with
  | zero => simp [revBits]; omega
  | succ w ih =>
    have h1 : revBits w (i / 2) < 2 ^ w := revBits_lt w (i / 2)
    have h2 : i % 2 ≤ 1 := by omega
    show revBits (w + 1) (revBits w (i / 2) + (i % 2) * 2 ^ w) = i
    rw [revBits_high w (revBits w (i / 2)) (i % 2) h1 h2]
    rw [ih (i / 2) (by rw [pow_succ] at h; omega)]
    omega

theorem two_pow_lor_of_bit_clear (w x : Nat) (h : x / 2 ^ w % 2 = 0) :
    2 ^ w ||| x = x + 2 ^ w := by
  have hr : x % 2 ^ w < 2 ^ w := Nat.mod_lt _ (Nat.pos_pow_of_pos w (by norm_num))
  have hx : x = 2 ^ w * (x / 2 ^ w) + x % 2 ^ w := (Nat.div_add_mod x (2 ^ w)).symm
  have heven : x / 2 ^ w % 2 = 0 := h
  apply Nat.eq_of_testBit_eq
  intro j
  rw [Nat.testBit_or]
  have hx2 : x + 2 ^ w = 2 ^ w * (x / 2 ^ w + 1) + x % 2 ^ w := by
    rw [Nat.mul_add, Nat.mul_one]
    omega
  rw [show x.testBit j = (2 ^ w * (x / 2 ^ w) + x % 2 ^ w).testBit j from by rw [← hx]]
  rw [show (x + 2 ^ w).testBit j = (2 ^ w * (x / 2 ^ w + 1) + x % 2 ^ w).testBit j from by
    rw [← hx2]]
  rw [Nat.testBit_mul_pow_two_add _ hr j, Nat.testBit_mul_pow_two_add _ hr j]
  rcases Nat.lt_trichotomy j w with hj | hj | hj
  · rw [if_pos hj, if_pos hj, Nat.testBit_two_pow_of_ne (by omega)]
    simp
  · subst hj
    rw [if_neg (by omega), if_neg (by omega), Nat.sub_self, Nat.testBit_two_pow_self]
    rw [Nat.testBit_zero, Nat.testBit_zero]
    simp [heven]
    omega
  · rw [if_neg (by omega), if_neg (by omega), Nat.testBit_two_pow_of_ne (by omega)]
    have hsub : j - w = (j - w - 1) + 1 := by omega
    rw [hsub, Nat.testBit_add_one, Nat.testBit_add_one]
    have : (x / 2 ^ w + 1) / 2 = x / 2 ^ w / 2 := by omega
    rw [this]
    simp

/-! ## Lemmas about butterflies and the NTT layer structure -/

theorem upd_same (c : Nat → F) (i : Nat) (x : F) : upd c i x i = x := by
  simp [upd]

theorem upd_ne (c : Nat → F) (i : Nat) (x : F) (j : Nat) (h : j ≠ i) : upd c i x j = c j := by
  simp [upd, h]

theorem butterfly_fwd_at0 (t : F) (i0 i1 : Nat) (hne : i0 ≠ i1) (c : Nat → F) :
    butterfly_fwd t i0 i1 c i0 = c i0 + c i1 * t := by
  dsimp only [butterfly_fwd]
  rw [upd_ne _ _ _ _ hne, upd_same]

theorem butterfly_fwd_at1 (t : F) (i0 i1 : Nat) (c : Nat → F) :
    butterfly_fwd t i0 i1 c i1 = c i1 + (c i0 + c i1 * t) := by
  dsimp only [butterfly_fwd]
  rw [upd_same]

theorem butterfly_fwd_other (t : F) (i0 i1 : Nat) (c : Nat → F) (j : Nat)
    (h0 : j ≠ i0) (h1 : j ≠ i1) : butterfly_fwd t i0 i1 c j = c j := by
  dsimp only [butterfly_fwd]
  rw [upd_ne _ _ _ _ h1, upd_ne _ _ _ _ h0]

theorem butterfly_inv_fwd (h2 : (2 : F) = 0) (t : F) (i0 i1 : Nat) (hne : i0 ≠ i1)
    (c : Nat → F) : butterfly_inv t i0 i1 (butterfly_fwd t i0 i1 c) = c := by
  funext j
  dsimp only [butterfly_inv]
  by_cases hj1 : j = i1
  · subst hj1
    rw [upd_same, butterfly_fwd_at0 t i0 j hne, butterfly_fwd_at1]
    linear_combination (c i0 + c j * t) * h2
  · rw [upd_ne _ _ _ _ hj1]
    by_cases hj0 : j = i0
    · subst hj0
      rw [upd_same, butterfly_fwd_at0 t j i1 hne, butterfly_fwd_at1]
      linear_combination (c i1 * t + c j * t + c i1 * t * t) * h2
    · rw [upd_ne _ _ _ _ hj0, butterfly_fwd_other t i0 i1 c j hj0 hj1]

theorem butterfly_inv_fwd_comm (t s : F) (i0 i1 j0 j1 : Nat)
    (h00 : i0 ≠ j0) (h01 : i0 ≠ j1) (h10 : i1 ≠ j0) (h11 : i1 ≠ j1) (c : Nat → F) :
    butterfly_inv t i0 i1 (butterfly_fwd s j0 j1 c)
      = butterfly_fwd s j0 j1 (butterfly_inv t i0 i1 c) := by
  funext x
  dsimp only [butterfly_inv, butterfly_fwd, upd]
  rw [if_neg h01, if_neg h00, if_neg h11, if_neg h10,
    if_neg (Ne.symm h11), if_neg (Ne.symm h10), if_neg (Ne.symm h01), if_neg (Ne.symm h00)]
  split_ifs <;> simp_all

theorem block_decomp_inj {H b b' s s' : Nat} (hH : 0 < H) (hs : s < H) (hs' : s' < H)
    (h : b * H + s = b' * H + s') : b = b' ∧ s = s' := by
  have h1 : (H * b + s) / H = b := by
    rw [Nat.mul_add_div hH, Nat.div_eq_of_lt hs, Nat.add_zero]
  have h2 : (H * b' + s') / H = b' := by
    rw [Nat.mul_add_div hH, Nat.div_eq_of_lt hs', Nat.add_zero]
  have h' : H * b + s = H * b' + s' := by
    rw [Nat.mul_comm H b, Nat.mul_comm H b']
    exact h
  have hb : b = b' := by rw [← h1, ← h2, h']
  subst hb
  exact ⟨rfl, by omega⟩

theorem layerPairs_eq (tw : Nat → Nat → F) (log_d layer : Nat) (hl : layer < log_d) :
    layerPairs tw log_d layer = (List.range (2 ^ layer)).flatMap (fun block =>
      (List.range (2 ^ (log_d - layer - 1))).map (fun o =>
        (tw layer block, block * 2 ^ (log_d - layer) + o,
          block * 2 ^ (log_d - layer) + 2 ^ (log_d - layer - 1) + o))) := by
  unfold layerPairs
  simp only [Nat.shiftLeft_eq, one_mul]
  refine List.flatMap_congr (fun block hblock => ?_)
  refine List.map_congr_left (fun o ho => ?_)
  rw [List.mem_range] at ho
  have hlor : 2 ^ (log_d - layer - 1) ||| (block * 2 ^ (log_d - layer) + o)
      = block * 2 ^ (log_d - layer) + o + 2 ^ (log_d - layer - 1) := by
    refine two_pow_lor_of_bit_clear _ _ ?_
    have hsplit : 2 ^ (log_d - layer) = 2 ^ (log_d - layer - 1) * 2 := by
      rw [← pow_succ]
      congr 1
      omega
    rw [hsplit, show block * (2 ^ (log_d - layer - 1) * 2) + o
        = o + block * 2 * 2 ^ (log_d - layer - 1) by ring]
    rw [Nat.add_mul_div_right _ _ (Nat.pos_pow_of_pos _ (by norm_num))]
    rw [Nat.div_eq_of_lt ho]
    omega
  rw [hlor]
  rw [show block * 2 ^ (log_d - layer) + o + 2 ^ (log_d - layer - 1)
      = block * 2 ^ (log_d - layer) + 2 ^ (log_d - layer - 1) + o by ring]

theorem layerPairs_mem_spec (tw : Nat → Nat → F) (log_d layer : Nat) (hl : layer < log_d) :
    ∀ pr ∈ layerPairs tw log_d layer, ∃ block o, block < 2 ^ layer ∧
      o < 2 ^ (log_d - layer - 1) ∧
      pr.2.1 = block * 2 ^ (log_d - layer) + o ∧
      pr.2.2 = block * 2 ^ (log_d - layer) + 2 ^ (log_d - layer - 1) + o := by
  rw [layerPairs_eq tw log_d layer hl]
  intro pr hpr
  rw [List.mem_flatMap] at hpr
  obtain ⟨block, hblock, hpr⟩ := hpr
  rw [List.mem_map] at hpr
  obtain ⟨o, ho, hpr⟩ := hpr
  rw [List.mem_range] at hblock ho
  exact ⟨block, o, hblock, ho, by rw [← hpr], by rw [← hpr]⟩

theorem two_pow_sub_mul (log_d layer : Nat) (hl : layer < log_d) :
    2 ^ (log_d - layer - 1) * 2 = 2 ^ (log_d - layer) := by
  rw [← pow_succ]
  congr 1
  omega

theorem layerPairs_self_ne (tw : Nat → Nat → F) (log_d layer : Nat) (hl : layer < log_d) :
    ∀ pr ∈ layerPairs tw log_d layer, pr.2.1 ≠ pr.2.2 := by
  intro pr hpr
  obtain ⟨block, o, -, ho, h1, h2⟩ := layerPairs_mem_spec tw log_d layer hl pr hpr
  have hpos : 0 < 2 ^ (log_d - layer - 1) := Nat.pos_pow_of_pos _ (by norm_num)
  omega

theorem layerPairs_bound (tw : Nat → Nat → F) (log_d layer : Nat) (hl : layer < log_d) :
    ∀ pr ∈ layerPairs tw log_d layer, pr.2.1 < 2 ^ log_d ∧ pr.2.2 < 2 ^ log_d := by
  intro pr hpr
  obtain ⟨block, o, hblock, ho, h1, h2⟩ := layerPairs_mem_spec tw log_d layer hl pr hpr
  have hmul : 2 ^ (log_d - layer - 1) * 2 = 2 ^ (log_d - layer) := two_pow_sub_mul log_d layer hl
  have hblock1 : block + 1 ≤ 2 ^ layer := hblock
  have hbound : (block + 1) * 2 ^ (log_d - layer) ≤ 2 ^ layer * 2 ^ (log_d - layer) :=
    Nat.mul_le_mul_right _ hblock1
  have hpow : 2 ^ layer * 2 ^ (log_d - layer) = 2 ^ log_d := by
    rw [← pow_add]
    congr 1
    omega
  have hexp : (block + 1) * 2 ^ (log_d - layer)
      = block * 2 ^ (log_d - layer) + 2 ^ (log_d - layer) := by ring
  omega

theorem pairwise_flatMap_of {α β : Type} {R : β → β → Prop} (l : List α) (g : α → List β)
    (hin : ∀ a ∈ l, (g a).Pairwise R)
    (hcross : ∀ a ∈ l, ∀ b ∈ l, a ≠ b → ∀ x ∈ g a, ∀ y ∈ g b, R x y)
    (hnd : l.Pairwise (fun a b => a ≠ b)) : (l.flatMap g).Pairwise R := by
  induction l with
  | nil => exact List.Pairwise.nil
  | cons a l ih =>
    rw [List.flatMap_cons, List.pairwise_append]
    rw [List.pairwise_cons] at hnd
    refine ⟨hin a (List.mem_cons_self a l),
      ih (fun b hb => hin b (List.mem_cons_of_mem a hb))
        (fun b hb b' hb' => hcross b (List.mem_cons_of_mem a hb) b' (List.mem_cons_of_mem a hb'))
        hnd.2, ?_⟩
    intro x hx y hy
    rw [List.mem_flatMap] at hy
    obtain ⟨b, hb, hyb⟩ := hy
    exact hcross a (List.mem_cons_self a l) b (List.mem_cons_of_mem a hb) (hnd.1 b hb) x hx y hyb

theorem layerPairs_pairwise (tw : Nat → Nat → F) (log_d layer : Nat) (hl : layer < log_d) :
    (layerPairs tw log_d layer).Pairwise
      (fun p q => p.2.1 ≠ q.2.1 ∧ p.2.1 ≠ q.2.2 ∧ p.2.2 ≠ q.2.1 ∧ p.2.2 ≠ q.2.2) := by
  have hpos : 0 < 2 ^ (log_d - layer - 1) := Nat.pos_pow_of_pos _ (by norm_num)
  have hmul : 2 ^ (log_d - layer - 1) * 2 = 2 ^ (log_d - layer) := two_pow_sub_mul log_d layer hl
  have hH : 0 < 2 ^ (log_d - layer) := Nat.pos_pow_of_pos _ (by norm_num)
  rw [layerPairs_eq tw log_d layer hl]
  refine pairwise_flatMap_of _ _ ?_ ?_ ?_
  · intro block hblock
    rw [List.pairwise_map]
    refine (List.pairwise_lt_range _).imp_of_mem ?_
    intro o o' ho ho' hlt
    rw [List.mem_range] at ho ho'
    refine ⟨?_, ?_, ?_, ?_⟩ <;> dsimp only <;> omega
  · intro a ha b hb hab x hx y hy
    rw [List.mem_map] at hx hy
    obtain ⟨o, ho, hxo⟩ := hx
    obtain ⟨o', ho', hyo⟩ := hy
    rw [List.mem_range] at ho ho'
    subst hxo
    subst hyo
    dsimp only
    have hb1 : o < 2 ^ (log_d - layer) := by omega
    have hb1' : o' < 2 ^ (log_d - layer) := by omega
    have hb2 : 2 ^ (log_d - layer - 1) + o < 2 ^ (log_d - layer) := by omega
    have hb2' : 2 ^ (log_d - layer - 1) + o' < 2 ^ (log_d - layer) := by omega
    refine ⟨fun h => hab ?_, fun h => hab ?_, fun h => hab ?_, fun h => hab ?_⟩
    · exact (block_decomp_inj hH hb1 hb1' h).1
    · exact (block_decomp_inj hH hb1 hb2' (by omega)).1
    · exact (block_decomp_inj hH hb2 hb1' (by omega)).1
    · exact (block_decomp_inj hH hb2 hb2' (by omega)).1
  · exact (List.pairwise_lt_range _).imp (fun h => Nat.ne_of_lt h)

theorem applyPairs_cons (B : F → Nat → Nat → (Nat → F) → Nat → F)
    (p : F × Nat × Nat) (ps : List (F × Nat × Nat)) (c : Nat → F) :
    applyPairs B (p :: ps) c = applyPairs B ps (B p.1 p.2.1 p.2.2 c) := rfl

theorem butterfly_inv_applyPairs_fwd_comm (t : F) (i0 i1 : Nat) (ps : List (F × Nat × Nat))
    (hdisj : ∀ q ∈ ps, i0 ≠ q.2.1 ∧ i0 ≠ q.2.2 ∧ i1 ≠ q.2.1 ∧ i1 ≠ q.2.2) (c : Nat → F) :
    butterfly_inv t i0 i1 (applyPairs butterfly_fwd ps c)
      = applyPairs butterfly_fwd ps (butterfly_inv t i0 i1 c) := by
  induction ps generalizing c with
  | nil => rfl
  | cons q ps ih =>
    obtain ⟨h1, h2, h3, h4⟩ := hdisj q (List.mem_cons_self q ps)
    rw [applyPairs_cons, applyPairs_cons]
    rw [ih (fun q' hq' => hdisj q' (List.mem_cons_of_mem q hq')) (butterfly_fwd q.1 q.2.1 q.2.2 c)]
    rw [butterfly_inv_fwd_comm t q.1 i0 i1 q.2.1 q.2.2 h1 h2 h3 h4 c]

theorem applyPairs_inv_fwd (h2 : (2 : F) = 0) (ps : List (F × Nat × Nat))
    (hself : ∀ p ∈ ps, p.2.1 ≠ p.2.2)
    (hpw : ps.Pairwise
      (fun p q => p.2.1 ≠ q.2.1 ∧ p.2.1 ≠ q.2.2 ∧ p.2.2 ≠ q.2.1 ∧ p.2.2 ≠ q.2.2))
    (c : Nat → F) :
    applyPairs butterfly_inv ps (applyPairs butterfly_fwd ps c) = c := by
  induction ps generalizing c with
  | nil => rfl
  | cons p ps ih =>
    rw [List.pairwise_cons] at hpw
    rw [applyPairs_cons, applyPairs_cons]
    rw [butterfly_inv_applyPairs_fwd_comm p.1 p.2.1 p.2.2 ps hpw.1
      (butterfly_fwd p.1 p.2.1 p.2.2 c)]
    rw [butterfly_inv_fwd h2 p.1 p.2.1 p.2.2 (hself p (List.mem_cons_self p ps)) c]
    exact ih (fun q hq => hself q (List.mem_cons_of_mem p hq)) hpw.2 c

theorem butterfly_inv_congr (N : Nat) (t : F) (i0 i1 : Nat) (hi0 : i0 < N) (hi1 : i1 < N)
    (f g : Nat → F) (h : ∀ i < N, f i = g i) :
    ∀ i < N, butterfly_inv t i0 i1 f i = butterfly_inv t i0 i1 g i := by
  intro i hi
  dsimp only [butterfly_inv, upd]
  rw [h i0 hi0, h i1 hi1]
  split_ifs <;> first | rfl | exact h i hi

theorem applyPairs_inv_congr (N : Nat) (ps : List (F × Nat × Nat))
    (hb : ∀ p ∈ ps, p.2.1 < N ∧ p.2.2 < N) (f g : Nat → F)
    (h : ∀ i < N, f i = g i) :
    ∀ i < N, applyPairs butterfly_inv ps f i = applyPairs butterfly_inv ps g i := by
  induction ps generalizing f g with
  | nil => exact h
  | cons p ps ih =>
    obtain ⟨h1, h2⟩ := hb p (List.mem_cons_self p ps)
    rw [applyPairs_cons, applyPairs_cons]
    exact ih (fun q hq => hb q (List.mem_cons_of_mem p hq)) _ _
      (butterfly_inv_congr N p.1 p.2.1 p.2.2 h1 h2 f g h)

theorem fold_inv_layers_congr (tw : Nat → Nat → F) (log_d : Nat) (L : List Nat)
    (hlayers : ∀ layer ∈ L, layer < log_d) (f g : Nat → F)
    (h : ∀ i < 2 ^ log_d, f i = g i) :
    ∀ i < 2 ^ log_d,
      L.foldl (fun c layer => applyPairs butterfly_inv (layerPairs tw log_d layer) c) f i
        = L.foldl (fun c layer => applyPairs butterfly_inv (layerPairs tw log_d layer) c) g i := by
  induction L generalizing f g with
  | nil => exact h
  | cons a L ih =>
    rw [List.foldl_cons, List.foldl_cons]
    exact ih (fun layer hl => hlayers layer (List.mem_cons_of_mem a hl)) _ _
      (applyPairs_inv_congr (2 ^ log_d) _
        (layerPairs_bound tw log_d a (hlayers a (List.mem_cons_self a L))) f g h)

theorem inv_ntt_congr (tw : Nat → Nat → F) (log_d skip_early skip_late : Nat)
    (f g : Nat → F) (h : ∀ i < 2 ^ log_d, f i = g i) :
    ∀ i < 2 ^ log_d, inv_ntt tw log_d skip_early skip_late f i
      = inv_ntt tw log_d skip_early skip_late g i := by
  unfold inv_ntt
  refine fold_inv_layers_congr tw log_d _ ?_ f g h
  intro layer hlayer
  rw [List.mem_reverse, List.mem_range'_1] at hlayer
  omega

theorem fold_layers_cancel (h2 : (2 : F) = 0) (tw : Nat → Nat → F) (log_d : Nat)
    (L : List Nat) (hmem : ∀ layer ∈ L, layer < log_d) (c : Nat → F) :
    (L.reverse).foldl (fun c layer => applyPairs butterfly_inv (layerPairs tw log_d layer) c)
      (L.foldl (fun c layer => applyPairs butterfly_fwd (layerPairs tw log_d layer) c) c)
      = c := by
  induction L using List.reverseRecOn generalizing c with
  | nil => rfl
  | append_singleton L a ih =>
    have ha : a < log_d := hmem a (List.mem_append_right L (List.mem_singleton.mpr rfl))
    rw [List.reverse_append, List.reverse_singleton, List.singleton_append,
      List.foldl_append, List.foldl_cons]
    simp only [List.foldl_cons, List.foldl_nil]
    rw [applyPairs_inv_fwd h2 _ (layerPairs_self_ne tw log_d a ha)
      (layerPairs_pairwise tw log_d a ha)]
    exact ih (fun layer hl => hmem layer (List.mem_append_left [a] hl)) c

theorem inv_fwd_ntt_cancel (h2 : (2 : F) = 0) (tw : Nat → Nat → F)
    (log_d skip_early skip_late : Nat) (c : Nat → F) :
    inv_ntt tw log_d skip_early skip_late (fwd_ntt tw log_d skip_early skip_late c) = c := by
  unfold inv_ntt fwd_ntt
  refine fold_layers_cancel h2 tw log_d _ ?_ c
  intro layer hlayer
  rw [List.mem_range'_1] at hlayer
  omega

/-! ## Lemmas about the decoder and the encode/decode round trip -/

theorem getD_map_range {α : Type} (f : Nat → α) (n i : Nat) (d : α) (h : i < n) :
    ((List.range n).map f).getD i d = f i := by
  rw [List.getD_eq_getElem?_getD, List.getElem?_map, List.getElem?_range h]
  rfl

theorem map_getD_range_eq_self {α : Type} (l : List α) (d : α) (n : Nat) (h : l.length = n) :
    (List.range n).map (fun i => l.getD i d) = l := by
  refine List.ext_getElem (by simp [h]) (fun i h1 h2 => ?_)
  rw [List.getElem_map, List.getElem_range]
  rw [List.getD_eq_getElem l d h2]

theorem decode_batch_ok (tw : Nat → Nat → F) (log_len log_inv log_batch : Nat)
    (data : List F) (hlen : data.length = 2 ^ (log_len + log_batch - LOG_WIDTH)) :
    decode_batch tw log_len log_inv log_batch data
      = Except.ok ((List.range (2 ^ (log_len + log_batch - LOG_WIDTH))).map
          (inv_ntt tw (log_len + log_batch) log_inv log_batch (fun i => data.getD i 0))) := by
  unfold decode_batch
  simp only [LOG_WIDTH, Nat.sub_zero] at hlen ⊢
  rw [if_pos (Nat.zero_le _)]
  rw [if_neg (fun hne => hne hlen)]

theorem decode_batch_error (tw : Nat → Nat → F) (log_len log_inv log_batch : Nat)
    (data : List F) (hlen : data.length ≠ 2 ^ (log_len + log_batch - LOG_WIDTH)) :
    decode_batch tw log_len log_inv log_batch data
      = Except.error ("Unexpected data length: "
          ++ toString (2 ^ (log_len + log_batch - LOG_WIDTH)) ++ " "
          ++ toString data.length ++ " ") := by
  unfold decode_batch
  simp only [LOG_WIDTH, Nat.sub_zero] at hlen ⊢
  rw [if_pos (Nat.zero_le _)]
  rw [if_pos hlen]

/-- Claim C6 (amended): `decode_codeword` returns an error (its
`DecodeError`, from the length check of `decode_batch`) if and only if the
input slice's length differs from
`1 << (log_dim + log_inv_rate + log_batch_size - LOG_WIDTH)`; with exactly
that length it does not reject.  (The unamended claim omitted
`log_inv_rate`: `decode_codeword` passes `rs_code.log_len() =
log_dim + log_inv_rate` to `decode_batch`, so the accepted length is the
full codeword length, not `1 << (log_dim + log_batch_size -
LOG_WIDTH)`.) -/
theorem decode_codeword_error_iff (tw : Nat → Nat → F) (p : FRIParamsM) (cw : List F) :
    (∃ msg, decode_codeword tw p cw = Except.error msg) ↔
      cw.length ≠ 2 ^ (p.log_dim + p.log_inv_rate + p.log_batch_size - LOG_WIDTH) := by
  by_cases hlen : cw.length = 2 ^ (p.log_dim + p.log_inv_rate + p.log_batch_size - LOG_WIDTH)
  · refine iff_of_false ?_ (fun h => h hlen)
    rintro ⟨msg, hmsg⟩
    unfold decode_codeword at hmsg
    rw [decode_batch_ok tw _ _ _ cw hlen] at hmsg
    exact Except.noConfusion hmsg
  · refine iff_of_true ?_ hlen
    refine ⟨"Unexpected data length: "
        ++ toString (2 ^ (p.log_dim + p.log_inv_rate + p.log_batch_size - LOG_WIDTH)) ++ " "
        ++ toString cw.length ++ " ", ?_⟩
    unfold decode_codeword
    rw [decode_batch_error tw _ _ _ cw hlen]

/-- Claim C6, counterexample: with `log_dim = 1`, `log_inv_rate = 1`,
`log_batch_size = 0` the claimed accepted length is
`1 << (log_dim + log_batch_size - LOG_WIDTH) = 2`, but `decode_codeword`
rejects a slice of length `2` with its length error (the code expects the
full codeword length `4`). -/
theorem decode_codeword_error_iff_cex :
    (2 : Nat) = 1 <<< (1 + 0 - LOG_WIDTH) ∧
      decode_codeword (fun _ _ => (1 : ZMod 2)) (FRIParamsM.mk 1 1 0) ([0, 0] : List (ZMod 2))
        = Except.error "Unexpected data length: 4 2 " :=
  ⟨by decide, rfl⟩

/-- Claim C1: over a characteristic-two field, decoding the Reed–Solomon
encoding of a packed MLE vector of log-length `n_vars` with the FRI
parameters built by `initialize_fri_context` (batch size hardcoded to `0`)
returns the vector: `decode_codeword (encode_codeword v) = Ok v`. -/
theorem encode_decode_codeword_roundtrip (h2 : (2 : F) = 0) (tw : Nat → Nat → F)
    (n_vars log_inv : Nat) (v : List F) (hv : v.length = 2 ^ n_vars) :
    ∃ cw, encode_codeword tw (initialize_fri_context n_vars log_inv) v = Except.ok cw ∧
      decode_codeword tw (initialize_fri_context n_vars log_inv) cw = Except.ok v := by
  refine ⟨_, rfl, ?_⟩
  have hP1 : (initialize_fri_context n_vars log_inv).log_dim = n_vars := rfl
  have hP2 : (initialize_fri_context n_vars log_inv).log_inv_rate = log_inv := rfl
  have hP3 : (initialize_fri_context n_vars log_inv).log_batch_size = 0 := rfl
  unfold decode_codeword
  dsimp only
  simp only [hP1, hP2, hP3, Nat.add_zero, Nat.sub_zero, LOG_WIDTH]
  rw [decode_batch_ok tw (n_vars + log_inv) log_inv 0 _
    (by simp [LOG_WIDTH, List.length_map, List.length_range])]
  simp only [Nat.add_zero, Nat.sub_zero, LOG_WIDTH]
  congr 1
  have hle : 2 ^ n_vars ≤ 2 ^ (n_vars + log_inv) :=
    Nat.pow_le_pow_right (by norm_num) (Nat.le_add_right _ _)
  have hdecval : ∀ j, j < 2 ^ n_vars →
      ((List.range (2 ^ (n_vars + log_inv))).map
        (inv_ntt tw (n_vars + log_inv) log_inv 0 (fun i =>
          ((List.range (2 ^ (n_vars + log_inv))).map
            (fwd_ntt tw (n_vars + log_inv) log_inv 0
              (fun i => v.getD (revBits n_vars (i % 2 ^ n_vars)) 0))).getD i 0))).getD j 0
      = v.getD (revBits n_vars (j % 2 ^ n_vars)) 0 := by
    intro j hj
    have hj' : j < 2 ^ (n_vars + log_inv) := lt_of_lt_of_le hj hle
    rw [getD_map_range _ _ _ _ hj']
    have hagree : ∀ i, i < 2 ^ (n_vars + log_inv) →
        (fun i => ((List.range (2 ^ (n_vars + log_inv))).map
          (fwd_ntt tw (n_vars + log_inv) log_inv 0
            (fun i => v.getD (revBits n_vars (i % 2 ^ n_vars)) 0))).getD i 0) i
        = fwd_ntt tw (n_vars + log_inv) log_inv 0
            (fun i => v.getD (revBits n_vars (i % 2 ^ n_vars)) 0) i := by
      intro i hi
      exact getD_map_range _ _ _ _ hi
    rw [inv_ntt_congr tw (n_vars + log_inv) log_inv 0 _ _ hagree j hj']
    rw [inv_fwd_ntt_cancel h2 tw (n_vars + log_inv) log_inv 0
      (fun i => v.getD (revBits n_vars (i % 2 ^ n_vars)) 0)]
  unfold bit_reverse
  refine Eq.trans ?_ (map_getD_range_eq_self v 0 (2 ^ n_vars) hv)
  refine List.map_congr_left (fun i hi => ?_)
  rw [List.mem_range] at hi
  have hrev : revBits n_vars i < 2 ^ n_vars := revBits_lt n_vars i
  rw [resize_getD_lt _ _ _ _ _ (by
      simp only [List.length_map, List.length_range]
      exact lt_of_lt_of_le hrev hle) hrev]
  rw [hdecval _ hrev]
  rw [Nat.mod_eq_of_lt hrev, revBits_revBits n_vars i hi]

/-- Witness for claim C1's theorem: over `GF(2) = ZMod 2`
(characteristic two), `n_vars = 1`, `log_inv_rate = 1`, constant twiddles
`1`, and the vector `[1, 0]`. -/
theorem encode_decode_codeword_roundtrip_instance :
    ((2 : ZMod 2) = 0) ∧ ([1, 0] : List (ZMod 2)).length = 2 ^ 1 ∧
      ∃ cw, encode_codeword (fun _ _ => (1 : ZMod 2)) (initialize_fri_context 1 1) [1, 0]
          = Except.ok cw ∧
        decode_codeword (fun _ _ => (1 : ZMod 2)) (initialize_fri_context 1 1) cw
          = Except.ok [1, 0] :=
  ⟨by decide, by decide,
    encode_decode_codeword_roundtrip (by decide) (fun _ _ => (1 : ZMod 2)) 1 1 [1, 0] (by decide)⟩

/-! ## Theorems about the transcript and evaluation-point helpers -/

/-- Claim C9: `calculate_evaluation_point_random` is deterministic — it
always returns `Ok`, any two calls (on the same instance, hence the same
fixed-seed PRNG stream and `n_vars`) return equal vectors, and the returned
vector has length `n_vars`.  The function reseeds `StdRng` from the
constant `[0; 32]` on every call, so no call-to-call state exists. -/
theorem calculate_evaluation_point_random_deterministic (stdRngB128 : Nat → F)
    (n_vars : Nat) :
    calculate_evaluation_point_random stdRngB128 n_vars
        = calculate_evaluation_point_random stdRngB128 n_vars ∧
      (calculate_evaluation_point_random stdRngB128 n_vars).map List.length
        = Except.ok n_vars := by
  refine ⟨rfl, ?_⟩
  unfold calculate_evaluation_point_random
  rw [show Except.map List.length (Except.ok ((List.range n_vars).map
      (fun i => stdRngB128 i)) : Except String (List F))
    = Except.ok ((List.range n_vars).map (fun i => stdRngB128 i)).length from rfl]
  rw [List.length_map, List.length_range]

/-- Claim C10: reconstructing a transcript from a byte vector and
immediately extracting its bytes returns exactly that vector (round-trip on
unread transcripts); in particular the empty byte vector round-trips. -/
theorem transcript_bytes_roundtrip (b : List Nat) :
    get_transcript_bytes (reconstruct_transcript_from_bytes b) = b := by
  unfold get_transcript_bytes reconstruct_transcript_from_bytes
  dsimp only
  by_cases hb : b.length - 0 = 0
  · rw [if_pos hb]
    have : b = [] := by
      rw [← List.length_eq_zero]
      omega
    rw [this]
  · rw [if_neg hb]
    exact List.drop_zero b
